import Mathlib

/-!
Shallow embedding of the text-preprocessing pipeline
(`read_time_machine`, `tokenize`, `count_corpus`, `Vocab`,
`load_corpus_time_machine`) and proofs about it.

Strings are modelled at two levels: raw text lines as `List Char`
(so the character-level normalization of `read_time_machine` is
explicit) and tokens as `String`.  Python dictionaries are modelled
as insertion-ordered association lists, matching the insertion and
overwrite semantics of `dict`; `collections.Counter` is modelled as
the association list from each distinct element (in first-occurrence
order, as Python dicts preserve insertion order) to its count.
Python's stable `sorted` is modelled by `List.insertionSort`, which
is stable in the same sense.  `raise`-free error reporting
(`tokenize` printing and returning `None`) is modelled by `Option`;
exceptions (`IndexError` in `to_tokens`) by `Except`.
-/

namespace TextPrep

/-- Python ASCII whitespace (code points 32, 9–13), as recognised by
`str.split()` / `str.strip()` on the text this pipeline produces. -/
def isSpc (c : Char) : Bool :=
  decide (c.toNat = 32 ∨ c.toNat = 9 ∨ c.toNat = 10 ∨ c.toNat = 11 ∨
    c.toNat = 12 ∨ c.toNat = 13)

/-- The character class `[A-Za-z]` of the `re.sub` pattern. -/
def isAlphaB (c : Char) : Bool :=
  decide ((65 ≤ c.toNat ∧ c.toNat ≤ 90) ∨ (97 ≤ c.toNat ∧ c.toNat ≤ 122))

/-- ASCII lower-casing of one character, as Python `str.lower()` acts on
the A–Z range (the only letters `read_time_machine` can feed it). -/
def lowerChar (c : Char) : Char :=
  if 65 ≤ c.toNat ∧ c.toNat ≤ 90 then Char.ofNat (c.toNat + 32) else c

/-- `re.sub('[^A-Za-z]+', ' ', line)`: each maximal run of non-alphabetic
characters becomes a single space.  A non-alphabetic character emits the
run's single space unless the rest of the run (collapsed to its right)
already starts with it. -/
def collapse : List Char → List Char
  | [] => []
  | c :: cs =>
    if isAlphaB c then c :: collapse cs
    else if (collapse cs).head? = some ' ' then collapse cs
    else ' ' :: collapse cs

/-- Python `str.strip()`: drop whitespace from both ends. -/
def strip (s : List Char) : List Char :=
  ((s.dropWhile isSpc).reverse.dropWhile isSpc).reverse

/-- The per-line normalization of `read_time_machine`:
`re.sub('[^A-Za-z]+', ' ', line).strip().lower()`. -/
def normalize (l : List Char) : List Char :=
  (strip (collapse l)).map lowerChar

/-- Whether a line starts with a whitespace character. -/
def headIsSpc (l : List Char) : Bool := (l.head?.map isSpc).getD false

/-- Python `str.split()` with no separator: split on runs of whitespace,
producing no empty words.  A non-whitespace character starts a new word
when the rest of the line begins with whitespace (or yields nothing),
and otherwise joins the first word split out of the rest. -/
def pySplit : List Char → List (List Char)
  | [] => []
  | c :: cs =>
    if isSpc c then pySplit cs
    else
      match pySplit cs with
      | [] => [[c]]
      | w :: ws => if headIsSpc cs then [c] :: w :: ws else (c :: w) :: ws

/-- `' '.join(words)`. -/
def joinSp : List (List Char) → List Char
  | [] => []
  | [w] => w
  | w :: ws => w ++ ' ' :: joinSp ws

/-- A one-character string, as `list(line)` produces in Python. -/
def chStr (c : Char) : String := String.mk [c]

/-- `tokenize(lines, token)`.  The unknown-mode branch of the source
prints an error message and returns `None`; the normal return of `None`
is modelled by `none` (no exception is raised). -/
def tokenize (lines : List (List Char)) (token : String) :
    Option (List (List String)) :=
  if token = "word" then some (lines.map fun l => (pySplit l).map String.mk)
  else if token = "char" then some (lines.map fun l => l.map chStr)
  else none

/-- The distinct elements of a list in first-occurrence order
(the key order of a Python `Counter`). -/
def firstOccs : List String → List String
  | [] => []
  | x :: xs => x :: (firstOccs xs).filter (fun y => y ≠ x)

/-- `collections.Counter(l)` as an insertion-ordered association list:
each distinct element of `l`, in first-occurrence order, paired with its
multiplicity in `l`. -/
def counterOf (l : List String) : List (String × Nat) :=
  (firstOccs l).map fun t => (t, l.count t)

/-- `count_corpus(tokens)` on a 2-D token list: flatten, then count.
(The source flattens whenever the input is empty or its first element is
a list, which is always the case for the 2-D inputs modelled here.) -/
def count_corpus (tokens : List (List String)) : List (String × Nat) :=
  counterOf tokens.flatten

/-- The comparison `sorted(..., key=lambda x: x[1], reverse=True)` sorts
by: `p` may come before `q` iff `q`'s count is at most `p`'s. -/
def freqGE (p q : String × Nat) : Prop := q.2 ≤ p.2

instance : DecidableRel freqGE := fun p q =>
  inferInstanceAs (Decidable (q.2 ≤ p.2))

instance : IsTotal (String × Nat) freqGE :=
  ⟨fun p q => Nat.le_total q.2 p.2⟩

instance : IsTrans (String × Nat) freqGE :=
  ⟨fun _ _ _ h h' => Nat.le_trans h' h⟩

/-- `d[k] = i` on a Python dict modelled as an association list:
overwrite in place if the key is present, else append. -/
def dictSet (d : List (String × Nat)) (k : String) (i : Nat) :
    List (String × Nat) :=
  if d.any (fun p => p.1 == k) then
    d.map (fun p => if p.1 == k then (k, i) else p)
  else d ++ [(k, i)]

/-- `d.get(k)` on a Python dict modelled as an association list. -/
def dictGet? (d : List (String × Nat)) (k : String) : Option Nat :=
  (d.find? (fun p => p.1 == k)).map (·.2)

/-- The dict-building loop of `Vocab.__init__`:
`for token in uniq_tokens: token_to_idx[token] = position`. -/
def buildT2I (uniq : List String) : List (String × Nat) :=
  uniq.enum.foldl (fun d p => dictSet d p.2 p.1) []

/-- The state built by `Vocab.__init__`. -/
structure Vocab where
  idx_to_token : List String
  token_to_idx : List (String × Nat)
  unk : Nat
  token_freqs : List (String × Nat)

/-- `Vocab(tokens, min_freq, reserved_tokens)`:
count, stably sort by descending frequency, assemble
`['<unk>'] + reserved_tokens` plus the frequent tokens not already
present, and build both directions of the mapping. -/
def makeVocab (tokens : List (List String)) (min_freq : Nat)
    (reserved_tokens : List String) : Vocab :=
  let token_freqs := List.insertionSort freqGE (count_corpus tokens)
  let uniq := "<unk>" :: reserved_tokens ++
    (token_freqs.filter fun p =>
      decide (min_freq ≤ p.2) && !(("<unk>" :: reserved_tokens).contains p.1)).map
      Prod.fst
  { idx_to_token := uniq
    token_to_idx := buildT2I uniq
    unk := 0
    token_freqs := token_freqs }

/-- `len(vocab)`. -/
def vocabLen (v : Vocab) : Nat := v.idx_to_token.length

/-- `vocab[token]` on a single (non-sequence) token:
`self.token_to_idx.get(tokens, self.unk)`. -/
def getitemS (v : Vocab) (t : String) : Nat :=
  (dictGet? v.token_to_idx t).getD v.unk

/-- `vocab.to_tokens(index)` on a single integer index:
Python list indexing `self.idx_to_token[indices]`, where a negative
index `i` addresses position `len + i` and anything still out of range
raises `IndexError`. -/
def to_tokensS (v : Vocab) (i : Int) : Except String String :=
  let j : Int := if i < 0 then i + v.idx_to_token.length else i
  if j < 0 then Except.error "list index out of range"
  else
    match v.idx_to_token[j.toNat]? with
    | some t => Except.ok t
    | none => Except.error "list index out of range"

/-- An argument to `Vocab.__getitem__`: a single token, or a
(possibly nested) sequence of arguments. -/
inductive TokArg where
  | tok : String → TokArg
  | seq : List TokArg → TokArg

/-- A result of `Vocab.__getitem__`: a single index, or a
(possibly nested) sequence of results. -/
inductive IdxRes where
  | idx : Nat → IdxRes
  | seq : List IdxRes → IdxRes

mutual

/-- `vocab[tokens]` in full generality: a non-sequence argument is a
single lookup; a sequence is looked up element by element, recursively. -/
def vocabGetItem (v : Vocab) : TokArg → IdxRes
  | .tok t => .idx (getitemS v t)
  | .seq xs => .seq (vocabGetItemL v xs)

/-- The element-by-element recursion of `Vocab.__getitem__` over a
sequence argument. -/
def vocabGetItemL (v : Vocab) : List TokArg → List IdxRes
  | [] => []
  | x :: xs => vocabGetItem v x :: vocabGetItemL v xs

end

/-- `load_corpus_time_machine(max_tokens)`, with the lines read from the
text file supplied as the `rawLines` parameter: normalize the lines,
tokenize by characters, build a vocabulary over those tokens, flatten
the per-line token sequences in document order while looking each token
up, and truncate to `max_tokens` elements when `max_tokens > 0`.
Returns `none` if tokenization returned `None` (never on this path). -/
def load_corpus_time_machine (rawLines : List (List Char)) (max_tokens : Int) :
    Option (List Nat × Vocab) :=
  let lines := rawLines.map normalize
  match tokenize lines "char" with
  | none => none
  | some tokens =>
    let vocab := makeVocab tokens 0 []
    let corpus := (tokens.map (fun line => line.map (getitemS vocab))).flatten
    some (if max_tokens > 0 then corpus.take max_tokens.toNat else corpus, vocab)

/-- The character tokenization `load_corpus_time_machine` performs:
normalize each raw line, then split it into one-character string tokens. -/
def charTokens (rawLines : List (List Char)) : List (List String) :=
  (rawLines.map normalize).map (fun l => l.map chStr)

/-- The untruncated corpus of `load_corpus_time_machine`: every token of
the flattened character tokenization, looked up in the vocabulary built
from those same tokens. -/
def fullCorpus (rawLines : List (List Char)) : List Nat :=
  (charTokens rawLines).flatten.map
    (getitemS (makeVocab (charTokens rawLines) 0 []))

/-- The corpus-derived tail of the index order: the frequency-sorted
token/count pairs that pass the `min_freq` filter and are not already in
`['<unk>'] + reserved_tokens`, projected to their tokens. -/
def keptTokens (tokens : List (List String)) (mf : Nat)
    (res : List String) : List String :=
  ((List.insertionSort freqGE (count_corpus tokens)).filter
    (fun p => decide (mf ≤ p.2) && !(("<unk>" :: res).contains p.1))).map
    Prod.fst

/-- The `size()` formula exactly as the specification words it (for
comparison with the code): 1 for the unknown token, plus the reserved
tokens deduplicated against the unknown token, plus the distinct corpus
tokens with frequency at least `min_freq` excluding those already in the
reserved list. -/
def sizeSpec (tokens : List (List String)) (min_freq : Nat)
    (reserved : List String) : Nat :=
  1 + (reserved.filter (fun t => t ≠ "<unk>")).length +
    ((firstOccs tokens.flatten).filter (fun t =>
      decide (min_freq ≤ tokens.flatten.count t) && !(reserved.contains t))).length

example : collapse "ab!!cd  e".data = "ab cd e".data := by decide
example : normalize "  The; Time!! Machine?  ".data = "the time machine".data := by decide
example : pySplit "the time machine".data = ["the".data, "time".data, "machine".data] := by decide
example : tokenize ["the time machine".data, [] ] "word" =
    some [["the", "time", "machine"], []] := by decide
example : (makeVocab [["a", "a", "b"]] 0 []).idx_to_token = ["<unk>", "a", "b"] := by decide
example : getitemS (makeVocab [["a", "a", "b"]] 0 []) "a" = 1 := by decide
example : getitemS (makeVocab [["a", "a", "b"]] 0 []) "z" = 0 := by decide
example : (makeVocab [["a", "b"]] 2 []).idx_to_token = ["<unk>"] := by decide
example : (makeVocab [] 0 ["<unk>"]).idx_to_token = ["<unk>", "<unk>"] := by decide
example : dictGet? (makeVocab [] 0 ["<unk>"]).token_to_idx "<unk>" = some 1 := by decide
example : to_tokensS (makeVocab [["a"]] 0 []) (-1) = Except.ok "a" := rfl
example : load_corpus_time_machine ["ab".data, "c".data] 2 =
    some ([(getitemS (makeVocab [["a", "b"], ["c"]] 0 []) "a"),
           (getitemS (makeVocab [["a", "b"], ["c"]] 0 []) "b")],
          makeVocab [["a", "b"], ["c"]] 0 []) := rfl

/-! ### Helper lemmas -/

theorem mem_dictSet {d : List (String × Nat)} {k : String} {i : Nat} {q}
    (h : q ∈ dictSet d k i) : q ∈ d ∨ q = (k, i) := by
  unfold dictSet at h
  split at h
  · obtain ⟨p, hp, hq⟩ := List.mem_map.1 h
    by_cases hk : p.1 == k
    · right; rw [if_pos hk] at hq; exact hq.symm
    · left; rw [if_neg hk] at hq; exact hq ▸ hp
  · rcases List.mem_append.1 h with h | h
    · exact Or.inl h
    · exact Or.inr (List.mem_singleton.1 h)

theorem dictSet_key_present (d : List (String × Nat)) (k : String) (i : Nat) :
    ∃ q ∈ dictSet d k i, q.1 = k := by
  unfold dictSet
  split
  case isTrue hany =>
    obtain ⟨p, hp, hpk⟩ := List.any_eq_true.1 hany
    refine ⟨(k, i), List.mem_map.2 ⟨p, hp, ?_⟩, rfl⟩
    rw [if_pos hpk]
  case isFalse =>
    exact ⟨(k, i), List.mem_append.2 (Or.inr (List.mem_singleton.2 rfl)), rfl⟩

theorem dictSet_key_preserved {d : List (String × Nat)} {t : String}
    (h : ∃ q ∈ d, q.1 = t) (k : String) (i : Nat) :
    ∃ q ∈ dictSet d k i, q.1 = t := by
  obtain ⟨q, hq, hqt⟩ := h
  unfold dictSet
  split
  · by_cases hk : q.1 == k
    · refine ⟨(k, i), List.mem_map.2 ⟨q, hq, by rw [if_pos hk]⟩, ?_⟩
      have : q.1 = k := by simpa using hk
      simp [← this, hqt]
    · exact ⟨q, List.mem_map.2 ⟨q, hq, by rw [if_neg hk]⟩, hqt⟩
  · exact ⟨q, List.mem_append.2 (Or.inl hq), hqt⟩

theorem foldl_dictSet_mem :
    ∀ (l : List (Nat × String)) (d : List (String × Nat)) (q : String × Nat),
      q ∈ l.foldl (fun d p => dictSet d p.2 p.1) d →
      q ∈ d ∨ ∃ p ∈ l, q = (p.2, p.1)
  | [], _, _, h => Or.inl h
  | p :: l, d, q, h => by
    rcases foldl_dictSet_mem l (dictSet d p.2 p.1) q h with h' | ⟨p', hp', hq⟩
    · rcases mem_dictSet h' with h'' | h''
      · exact Or.inl h''
      · exact Or.inr ⟨p, List.mem_cons_self p l, h''⟩
    · exact Or.inr ⟨p', List.mem_cons_of_mem p hp', hq⟩

theorem foldl_dictSet_key_preserved :
    ∀ (l : List (Nat × String)) (d : List (String × Nat)) (t : String),
      (∃ q ∈ d, q.1 = t) →
      ∃ q ∈ l.foldl (fun d p => dictSet d p.2 p.1) d, q.1 = t
  | [], _, _, h => h
  | p :: l, d, t, h =>
    foldl_dictSet_key_preserved l (dictSet d p.2 p.1) t
      (dictSet_key_preserved h p.2 p.1)

theorem foldl_dictSet_key :
    ∀ (l : List (Nat × String)) (d : List (String × Nat)) (p : Nat × String),
      p ∈ l → ∃ q ∈ l.foldl (fun d p => dictSet d p.2 p.1) d, q.1 = p.2
  | p' :: l, d, p, h => by
    rcases List.mem_cons.1 h with h' | h'
    · subst h'
      exact foldl_dictSet_key_preserved l (dictSet d p.2 p.1) p.2
        (dictSet_key_present d p.2 p.1)
    · exact foldl_dictSet_key l (dictSet d p'.2 p'.1) p h'

theorem buildT2I_mem {uniq : List String} {q : String × Nat}
    (h : q ∈ buildT2I uniq) : uniq[q.2]? = some q.1 := by
  rcases foldl_dictSet_mem uniq.enum [] q h with h' | ⟨p, hp, hq⟩
  · cases h'
  · have := List.mk_mem_enum_iff_getElem?.1 hp
    rw [hq]; exact this

theorem buildT2I_key {uniq : List String} {t : String} (h : t ∈ uniq) :
    ∃ q ∈ buildT2I uniq, q.1 = t := by
  obtain ⟨n, hn⟩ := List.getElem?_of_mem h
  exact foldl_dictSet_key uniq.enum [] (n, t)
    (List.mk_mem_enum_iff_getElem?.2 hn)

theorem dictGet?_some_mem {d : List (String × Nat)} {t : String} {i : Nat}
    (h : dictGet? d t = some i) : (t, i) ∈ d := by
  unfold dictGet? at h
  obtain ⟨q, hq, hqi⟩ := Option.map_eq_some'.1 h
  have hm := List.mem_of_find?_eq_some hq
  have hk : q.1 = t := by simpa using List.find?_some hq
  have : q = (t, i) := by
    cases q; simp_all
  exact this ▸ hm

theorem dictGet?_eq_none {d : List (String × Nat)} {t : String}
    (h : ∀ q ∈ d, q.1 ≠ t) : dictGet? d t = none := by
  unfold dictGet?
  rw [List.find?_eq_none.2 (fun q hq => by simpa using h q hq)]
  rfl

theorem dictGet?_isSome {d : List (String × Nat)} {t : String}
    (h : ∃ q ∈ d, q.1 = t) : ∃ i, dictGet? d t = some i := by
  obtain ⟨q, hq, hqt⟩ := h
  have : (d.find? (fun p => p.1 == t)).isSome :=
    List.find?_isSome.2 ⟨q, hq, by simpa using hqt⟩
  obtain ⟨q', hq'⟩ := Option.isSome_iff_exists.1 this
  exact ⟨q'.2, by unfold dictGet?; rw [hq']; rfl⟩

theorem buildT2I_oov {uniq : List String} {t : String} (h : t ∉ uniq) :
    dictGet? (buildT2I uniq) t = none := by
  refine dictGet?_eq_none fun q hq hqt => ?_
  exact h (hqt ▸ List.getElem?_mem (buildT2I_mem hq))

theorem buildT2I_lookup {uniq : List String} {t : String} (h : t ∈ uniq) :
    uniq[(dictGet? (buildT2I uniq) t).getD 0]? = some t := by
  obtain ⟨i, hi⟩ := dictGet?_isSome (buildT2I_key h)
  rw [hi]
  exact buildT2I_mem (dictGet?_some_mem hi)

theorem mem_firstOccs {l : List String} {t : String} :
    t ∈ firstOccs l ↔ t ∈ l := by
  induction l with
  | nil => simp [firstOccs]
  | cons x xs ih =>
    by_cases hx : t = x
    · subst hx; simp [firstOccs]
    · simp [firstOccs, List.mem_filter, hx, ih]

theorem nodup_firstOccs (l : List String) : (firstOccs l).Nodup := by
  induction l with
  | nil => simp [firstOccs]
  | cons x xs ih =>
    rw [firstOccs, List.nodup_cons]
    refine ⟨fun hx => ?_, ih.filter _⟩
    have := (List.mem_filter.1 hx).2
    simp at this

theorem to_tokensS_natCast (v : Vocab) (n : Nat) :
    to_tokensS v n =
      match v.idx_to_token[n]? with
      | some t => Except.ok t
      | none => Except.error "list index out of range" := by
  have h1 : ¬ ((n : Int) < 0) := by omega
  simp [to_tokensS, h1]

theorem roundtrip_general (v : Vocab)
    (hd : v.token_to_idx = buildT2I v.idx_to_token) (hu : v.unk = 0)
    (h0 : v.idx_to_token.get? 0 = some "<unk>") (t : String) :
    (t ∈ v.idx_to_token → to_tokensS v (getitemS v t) = Except.ok t) ∧
    (t ∉ v.idx_to_token → to_tokensS v (getitemS v t) = Except.ok "<unk>") := by
  constructor
  · intro ht
    rw [to_tokensS_natCast]
    have hl := buildT2I_lookup ht
    rw [getitemS, hd, hu, hl]
  · intro ht
    rw [to_tokensS_natCast]
    rw [getitemS, hd, hu, buildT2I_oov ht]
    have h0' : v.idx_to_token[0]? = some "<unk>" := by
      rw [← List.get?_eq_getElem?]; exact h0
    simp [h0']

theorem to_tokensS_oob (v : Vocab) (i : Int)
    (h : i < -(v.idx_to_token.length : Int) ∨ (v.idx_to_token.length : Int) ≤ i) :
    to_tokensS v i = Except.error "list index out of range" := by
  simp only [to_tokensS]
  rcases h with h | h
  · rw [if_pos (by omega : i < 0), if_pos (by omega :
      i + (v.idx_to_token.length : Int) < 0)]
  · have hi : ¬ i < 0 := by omega
    rw [if_neg hi, if_neg hi]
    rw [List.getElem?_eq_none (by omega : v.idx_to_token.length ≤ i.toNat)]

theorem to_tokensS_inbounds (v : Vocab) (i : Int)
    (h1 : -(v.idx_to_token.length : Int) ≤ i) (h2 : i < v.idx_to_token.length) :
    ∃ s, v.idx_to_token[(if i < 0 then i + v.idx_to_token.length else i).toNat]? =
        some s ∧ to_tokensS v i = Except.ok s := by
  have hlt : (if i < 0 then i + v.idx_to_token.length else i).toNat <
      v.idx_to_token.length := by
    split <;> omega
  refine ⟨v.idx_to_token[(if i < 0 then i + v.idx_to_token.length else i).toNat],
    List.getElem?_eq_getElem hlt, ?_⟩
  simp only [to_tokensS]
  rw [if_neg (show ¬ (if i < 0 then i + (v.idx_to_token.length : Int) else i) < 0
    by split <;> omega)]
  rw [List.getElem?_eq_getElem hlt]

theorem nodup_getElem?_inj {l : List String} (h : l.Nodup) {i j : Nat}
    {t : String} (hi : l[i]? = some t) (hj : l[j]? = some t) : i = j := by
  obtain ⟨hilt, hieq⟩ := List.getElem?_eq_some.1 hi
  obtain ⟨hjlt, hjeq⟩ := List.getElem?_eq_some.1 hj
  exact (List.Nodup.getElem_inj_iff h).1 (hieq.trans hjeq.symm)

theorem makeVocab_keys_nodup (tokens : List (List String)) :
    ((List.insertionSort freqGE (count_corpus tokens)).map Prod.fst).Nodup := by
  have hperm : List.Perm
      ((List.insertionSort freqGE (count_corpus tokens)).map Prod.fst)
      ((count_corpus tokens).map Prod.fst) :=
    (List.perm_insertionSort freqGE (count_corpus tokens)).map Prod.fst
  rw [hperm.nodup_iff]
  simp only [count_corpus, counterOf, List.map_map]
  exact (nodup_firstOccs tokens.flatten).map_on (by simp)

theorem makeVocab_idx_nodup (tokens : List (List String)) (mf : Nat)
    (res : List String) (h1 : res.Nodup) (h2 : "<unk>" ∉ res) :
    (makeVocab tokens mf res).idx_to_token.Nodup := by
  have hmem : ∀ t ∈ ((List.insertionSort freqGE (count_corpus tokens)).filter
      (fun p => decide (mf ≤ p.2) && !(("<unk>" :: res).contains p.1))).map
        Prod.fst, t ∉ ("<unk>" :: res) := by
    intro t ht
    obtain ⟨q, hq, rfl⟩ := List.mem_map.1 ht
    have := (List.mem_filter.1 hq).2
    simp only [Bool.and_eq_true, Bool.not_eq_true'] at this
    simpa using this.2
  have hrest : (((List.insertionSort freqGE (count_corpus tokens)).filter
      (fun p => decide (mf ≤ p.2) && !(("<unk>" :: res).contains p.1))).map
        Prod.fst).Nodup :=
    (makeVocab_keys_nodup tokens).sublist
      ((List.filter_sublist _).map Prod.fst)
  show (("<unk>" :: res ++ _ : List String)).Nodup
  rw [List.cons_append, List.nodup_cons, List.nodup_append]
  refine ⟨fun hc => ?_, h1, hrest, fun a ha hb => ?_⟩
  · rcases List.mem_append.1 hc with hc | hc
    · exact h2 hc
    · exact hmem _ hc (List.mem_cons_self _ _)
  · exact hmem _ hb (List.mem_cons_of_mem _ ha)

theorem makeVocab_idx_eq (tokens : List (List String)) (mf : Nat)
    (res : List String) :
    (makeVocab tokens mf res).idx_to_token =
      "<unk>" :: res ++ keptTokens tokens mf res := rfl

theorem pairwise_indexOf_firstOccs (l : List String) :
    (firstOccs l).Pairwise (fun a b => l.indexOf a < l.indexOf b) := by
  induction l with
  | nil => simp [firstOccs]
  | cons x xs ih =>
    rw [firstOccs, List.pairwise_cons]
    constructor
    · intro a ha
      have hne : a ≠ x := by simpa using (List.mem_filter.1 ha).2
      rw [List.indexOf_cons_self, List.indexOf_cons_ne _ (Ne.symm hne)]
      exact Nat.succ_pos _
    · refine (ih.filter _).imp_of_mem ?_
      intro a b ha hb hab
      have hna : a ≠ x := by simpa using (List.mem_filter.1 ha).2
      have hnb : b ≠ x := by simpa using (List.mem_filter.1 hb).2
      rw [List.indexOf_cons_ne _ (Ne.symm hna),
        List.indexOf_cons_ne _ (Ne.symm hnb)]
      omega

theorem mem_counterOf {l : List String} {p : String × Nat} :
    p ∈ counterOf l ↔ p.1 ∈ l ∧ p.2 = l.count p.1 := by
  unfold counterOf
  rw [List.mem_map]
  constructor
  · rintro ⟨t, ht, rfl⟩
    exact ⟨mem_firstOccs.1 ht, rfl⟩
  · rintro ⟨h1, h2⟩
    exact ⟨p.1, mem_firstOccs.2 h1, Prod.ext rfl h2.symm⟩

theorem pairwise_pos_counterOf (l : List String) :
    (counterOf l).Pairwise (fun p q => l.indexOf p.1 < l.indexOf q.1) := by
  unfold counterOf
  rw [List.pairwise_map]
  exact pairwise_indexOf_firstOccs l

theorem pairwise_orderedInsert_stable (pos : String × Nat → Nat)
    (a : String × Nat) :
    ∀ l : List (String × Nat), l.Sorted freqGE →
      l.Pairwise (fun p q => q.2 < p.2 ∨ (p.2 = q.2 ∧ pos p < pos q)) →
      (∀ b ∈ l, pos a < pos b) →
      (List.orderedInsert freqGE a l).Pairwise
        (fun p q => q.2 < p.2 ∨ (p.2 = q.2 ∧ pos p < pos q))
  | [], _, _, _ => by simp [List.orderedInsert]
  | b :: t, hs, hp, ha => by
    simp only [List.orderedInsert]
    by_cases hr : freqGE a b
    · rw [if_pos hr]
      refine List.pairwise_cons.2 ⟨?_, hp⟩
      intro z hz
      have hzb : z.2 ≤ a.2 := by
        rcases List.mem_cons.1 hz with rfl | hz'
        · exact hr
        · exact Nat.le_trans ((List.pairwise_cons.1 hs).1 z hz') hr
      rcases Nat.lt_or_ge z.2 a.2 with h | h
      · exact Or.inl h
      · exact Or.inr ⟨Nat.le_antisymm h hzb, ha z hz⟩
    · rw [if_neg hr]
      have hab : a.2 < b.2 := by
        simp only [freqGE, not_le] at hr
        exact hr
      refine List.pairwise_cons.2 ⟨?_, ?_⟩
      · intro z hz
        rcases (List.mem_orderedInsert freqGE).1 hz with rfl | hz'
        · exact Or.inl hab
        · exact (List.pairwise_cons.1 hp).1 z hz'
      · exact pairwise_orderedInsert_stable pos a t
          ((List.pairwise_cons.1 hs).2) ((List.pairwise_cons.1 hp).2)
          (fun z hz => ha z (List.mem_cons_of_mem b hz))

theorem pairwise_insertionSort_stable (pos : String × Nat → Nat) :
    ∀ l : List (String × Nat),
      l.Pairwise (fun p q => pos p < pos q) →
      (List.insertionSort freqGE l).Pairwise
        (fun p q => q.2 < p.2 ∨ (p.2 = q.2 ∧ pos p < pos q))
  | [], _ => by simp [List.insertionSort]
  | a :: l, hp => by
    simp only [List.insertionSort]
    refine pairwise_orderedInsert_stable pos a (List.insertionSort freqGE l)
      (List.sorted_insertionSort freqGE l)
      (pairwise_insertionSort_stable pos l (List.pairwise_cons.1 hp).2) ?_
    intro b hb
    exact (List.pairwise_cons.1 hp).1 b
      ((List.perm_insertionSort freqGE l).mem_iff.1 hb)

theorem kept_nodup (tokens : List (List String)) (mf : Nat)
    (res : List String) : (keptTokens tokens mf res).Nodup :=
  (makeVocab_keys_nodup tokens).sublist ((List.filter_sublist _).map Prod.fst)

theorem mem_kept {tokens : List (List String)} {mf : Nat}
    {res : List String} {t : String} :
    t ∈ keptTokens tokens mf res ↔
      t ∈ tokens.flatten ∧ mf ≤ tokens.flatten.count t ∧
        t ∉ ("<unk>" :: res) := by
  unfold keptTokens
  rw [List.mem_map]
  constructor
  · rintro ⟨p, hp, rfl⟩
    have hf := List.mem_filter.1 hp
    have hc : p ∈ counterOf tokens.flatten :=
      (List.perm_insertionSort freqGE (count_corpus tokens)).mem_iff.1 hf.1
    obtain ⟨hmem, hcnt⟩ := mem_counterOf.1 hc
    have hpred := hf.2
    simp only [Bool.and_eq_true, decide_eq_true_eq, Bool.not_eq_true'] at hpred
    refine ⟨hmem, hcnt ▸ hpred.1, ?_⟩
    simpa using hpred.2
  · rintro ⟨hmem, hcnt, hres⟩
    refine ⟨(t, tokens.flatten.count t), List.mem_filter.2 ⟨?_, ?_⟩, rfl⟩
    · exact (List.perm_insertionSort freqGE (count_corpus tokens)).mem_iff.2
        (mem_counterOf.2 ⟨hmem, rfl⟩)
    · simp only [Bool.and_eq_true, decide_eq_true_eq, Bool.not_eq_true']
      exact ⟨hcnt, by simpa using hres⟩

theorem kept_pairwise (tokens : List (List String)) (mf : Nat)
    (res : List String) :
    (keptTokens tokens mf res).Pairwise
      (fun a b => tokens.flatten.count b < tokens.flatten.count a ∨
        (tokens.flatten.count a = tokens.flatten.count b ∧
          tokens.flatten.indexOf a < tokens.flatten.indexOf b)) := by
  unfold keptTokens
  rw [List.pairwise_map]
  have hst := pairwise_insertionSort_stable
    (fun p => tokens.flatten.indexOf p.1) (count_corpus tokens)
    (pairwise_pos_counterOf tokens.flatten)
  refine (hst.filter _).imp_of_mem ?_
  intro p q hp hq hrel
  have hpc : p.2 = tokens.flatten.count p.1 :=
    (mem_counterOf.1 ((List.perm_insertionSort freqGE
      (count_corpus tokens)).mem_iff.1 (List.mem_filter.1 hp).1)).2
  have hqc : q.2 = tokens.flatten.count q.1 :=
    (mem_counterOf.1 ((List.perm_insertionSort freqGE
      (count_corpus tokens)).mem_iff.1 (List.mem_filter.1 hq).1)).2
  rcases hrel with h | ⟨h1, h2⟩
  · left; rw [← hpc, ← hqc]; exact h
  · exact Or.inr ⟨by rw [← hpc, ← hqc]; exact h1, h2⟩

/-- C2 (amended): the index order is exactly the unknown token at index
0, then the reserved tokens in the order supplied, then (as the
remaining suffix) the distinct corpus tokens of frequency at least
`min_freq` not already placed, in descending frequency with ties among
equal-frequency tokens broken by first-encountered order during
counting; provided the reserved tokens are pairwise distinct and do not
include the unknown token, every token is placed at only one index. -/
theorem vocab_index_order (tokens : List (List String)) (mf : Nat)
    (res : List String) :
    (makeVocab tokens mf res).idx_to_token.take (res.length + 1) =
      "<unk>" :: res ∧
    ((makeVocab tokens mf res).idx_to_token.drop (res.length + 1)).Nodup ∧
    (∀ t, t ∈ (makeVocab tokens mf res).idx_to_token.drop (res.length + 1) ↔
      t ∈ tokens.flatten ∧ mf ≤ tokens.flatten.count t ∧
        t ∉ ("<unk>" :: res)) ∧
    ((makeVocab tokens mf res).idx_to_token.drop (res.length + 1)).Pairwise
      (fun a b => tokens.flatten.count b < tokens.flatten.count a ∨
        (tokens.flatten.count a = tokens.flatten.count b ∧
          tokens.flatten.indexOf a < tokens.flatten.indexOf b)) ∧
    (res.Nodup → "<unk>" ∉ res →
      (makeVocab tokens mf res).idx_to_token.Nodup) := by
  have hdrop : (makeVocab tokens mf res).idx_to_token.drop (res.length + 1) =
      keptTokens tokens mf res := by
    rw [makeVocab_idx_eq, List.drop_left' (by simp)]
  have htake : (makeVocab tokens mf res).idx_to_token.take (res.length + 1) =
      "<unk>" :: res := by
    rw [makeVocab_idx_eq, List.take_left' (by simp)]
  refine ⟨htake, ?_, ?_, ?_, fun h1 h2 => makeVocab_idx_nodup tokens mf res h1 h2⟩
  · rw [hdrop]; exact kept_nodup tokens mf res
  · intro t; rw [hdrop]; exact mem_kept
  · rw [hdrop]; exact kept_pairwise tokens mf res

/-- C2 witness: a concrete corpus with a distinct reserved token. -/
theorem vocab_index_order_witness :
    ((["<pad>"] : List String).Nodup ∧ "<unk>" ∉ (["<pad>"] : List String)) ∧
    (makeVocab [["b", "a", "a"]] 0 ["<pad>"]).idx_to_token.Nodup :=
  ⟨⟨by decide, by decide⟩,
    (vocab_index_order [["b", "a", "a"]] 0 ["<pad>"]).2.2.2.2
      (by decide) (by decide)⟩

/-- C6: composing forward lookup with reverse lookup returns the token
itself when it was assigned an index, and the unknown token's string
when it was never assigned one.  This holds for every construction
input, pathological reserved lists included. -/
theorem getitem_to_tokens_roundtrip (tokens : List (List String)) (mf : Nat)
    (res : List String) (t : String) :
    (t ∈ (makeVocab tokens mf res).idx_to_token →
      to_tokensS (makeVocab tokens mf res)
        (getitemS (makeVocab tokens mf res) t) = Except.ok t) ∧
    (t ∉ (makeVocab tokens mf res).idx_to_token →
      to_tokensS (makeVocab tokens mf res)
        (getitemS (makeVocab tokens mf res) t) = Except.ok "<unk>") :=
  roundtrip_general (makeVocab tokens mf res) rfl rfl rfl t

/-- C6 witness: an in-vocabulary and an out-of-vocabulary token. -/
theorem getitem_to_tokens_roundtrip_witness :
    ("a" ∈ (makeVocab [["a"]] 0 []).idx_to_token ∧
      to_tokensS (makeVocab [["a"]] 0 [])
        (getitemS (makeVocab [["a"]] 0 []) "a") = Except.ok "a") ∧
    ("z" ∉ (makeVocab [["a"]] 0 []).idx_to_token ∧
      to_tokensS (makeVocab [["a"]] 0 [])
        (getitemS (makeVocab [["a"]] 0 []) "z") = Except.ok "<unk>") :=
  ⟨⟨by decide, (getitem_to_tokens_roundtrip [["a"]] 0 [] "a").1 (by decide)⟩,
   ⟨by decide, (getitem_to_tokens_roundtrip [["a"]] 0 [] "z").2 (by decide)⟩⟩

/-- C1 (amended): provided the reserved tokens are pairwise distinct and
do not include the unknown token, the two mappings are mutually inverse
bijections between the assigned tokens and `[0, size())` — no token at
two indices, no index with two tokens, the dictionary's graph equal to
the positions of the index-to-token list — and forward lookup is total,
resolving every out-of-vocabulary string to the unknown index 0. -/
theorem vocab_mappings_bijective (tokens : List (List String)) (mf : Nat)
    (res : List String) (h1 : res.Nodup) (h2 : "<unk>" ∉ res) :
    (makeVocab tokens mf res).idx_to_token.Nodup ∧
    (∀ (t : String) (i : Nat),
      dictGet? (makeVocab tokens mf res).token_to_idx t = some i ↔
        (makeVocab tokens mf res).idx_to_token[i]? = some t) ∧
    (∀ t : String, t ∉ (makeVocab tokens mf res).idx_to_token →
      getitemS (makeVocab tokens mf res) t = 0) := by
  have hnd := makeVocab_idx_nodup tokens mf res h1 h2
  refine ⟨hnd, fun t i => ⟨fun h => ?_, fun h => ?_⟩, fun t ht => ?_⟩
  · exact buildT2I_mem (dictGet?_some_mem h)
  · have htm : t ∈ (makeVocab tokens mf res).idx_to_token := List.getElem?_mem h
    obtain ⟨i', hi'⟩ := dictGet?_isSome (buildT2I_key htm)
    have h2' := buildT2I_mem (dictGet?_some_mem hi')
    have : i = i' := nodup_getElem?_inj hnd h h2'
    exact this ▸ hi'
  · rw [getitemS, show (makeVocab tokens mf res).token_to_idx =
      buildT2I (makeVocab tokens mf res).idx_to_token from rfl,
      buildT2I_oov ht]
    rfl

/-- C1 witness: a vocabulary with a distinct reserved token. -/
theorem vocab_mappings_bijective_witness :
    (["<pad>"] : List String).Nodup ∧ "<unk>" ∉ (["<pad>"] : List String) ∧
    (makeVocab [["a", "a", "b"]] 0 ["<pad>"]).idx_to_token.Nodup :=
  ⟨by decide, by decide,
    (vocab_mappings_bijective [["a", "a", "b"]] 0 ["<pad>"]
      (by decide) (by decide)).1⟩

theorem vocabGetItemL_eq_map (v : Vocab) (xs : List TokArg) :
    vocabGetItemL v xs = xs.map (vocabGetItem v) := by
  induction xs with
  | nil => rfl
  | cons x xs ih => simp [vocabGetItemL, ih]

theorem vocabLen_formula (tokens : List (List String)) (mf : Nat)
    (res : List String) :
    vocabLen (makeVocab tokens mf res) = 1 + res.length +
      ((firstOccs tokens.flatten).filter (fun t =>
        decide (mf ≤ tokens.flatten.count t) &&
          !(("<unk>" :: res).contains t))).length := by
  simp only [vocabLen, makeVocab, List.length_cons, List.length_append,
    List.length_map]
  rw [← List.countP_eq_length_filter, ← List.countP_eq_length_filter,
    (List.perm_insertionSort freqGE (count_corpus tokens)).countP_eq]
  simp only [count_corpus, counterOf, List.countP_map, Function.comp_def]
  omega

/-! ### Claim theorems -/

/-- C3: the claim says an unknown tokenization mode raises an
InvalidArgument-class error propagated to the caller.  The code instead
prints a message and falls through, returning `None` (modelled by
`none`): no exception is raised, though it also never silently defaults
to some tokenization, and `word`/`char` modes succeed. -/
theorem tokenize_unknown_mode_returns_none :
    tokenize [['a'], ['b', 'c']] "subword" = none ∧
    tokenize [['a'], ['b', 'c']] "word" = some [["a"], ["bc"]] ∧
    tokenize [['a'], ['b', 'c']] "char" = some [["a"], ["b", "c"]] := by
  decide

/-- C10: forward lookup distributes elementwise over sequence arguments,
recursively, so a nested list of tokens yields the correspondingly
nested list of indices with single-token lookup at the leaves. -/
theorem getitem_distributes_over_sequences (v : Vocab) (xs : List TokArg)
    (xss : List (List String)) :
    vocabGetItem v (.seq xs) = .seq (xs.map (vocabGetItem v)) ∧
    vocabGetItem v (.seq (xss.map fun l => .seq (l.map TokArg.tok))) =
      .seq (xss.map fun l => .seq (l.map fun t => IdxRes.idx (getitemS v t))) := by
  constructor
  · simp [vocabGetItem, vocabGetItemL_eq_map]
  · simp [vocabGetItem, vocabGetItemL_eq_map, List.map_map, Function.comp_def]

/-- C1 counterexample: with `reserved_tokens = ['<unk>']` the builder
places the unknown token at two indices, the reverse list is not
duplicate-free, and forward lookup of `'<unk>'` returns 1, so index 0's
token does not map back to 0: the mappings are not mutually inverse. -/
theorem vocab_duplicate_unk_not_bijective :
    (makeVocab [] 0 ["<unk>"]).idx_to_token = ["<unk>", "<unk>"] ∧
    dictGet? (makeVocab [] 0 ["<unk>"]).token_to_idx "<unk>" = some 1 ∧
    ¬ (makeVocab [] 0 ["<unk>"]).idx_to_token.Nodup := by
  decide

/-- C2 counterexample: with `reserved_tokens = ['a', 'a']` the token
`'a'`, which also appears in the corpus, is placed at two indices, not
only once. -/
theorem vocab_duplicate_reserved_placed_twice :
    (makeVocab [["a"]] 0 ["a", "a"]).idx_to_token = ["<unk>", "a", "a"] ∧
    (makeVocab [["a"]] 0 ["a", "a"]).idx_to_token.count "a" = 2 := by
  decide

/-- C4 counterexample: reverse lookup of `-1`, an index outside
`[0, size())`, does not fail: Python list indexing resolves it to the
last element. -/
theorem to_tokens_negative_index_succeeds :
    to_tokensS (makeVocab [["a"]] 0 []) (-1) = Except.ok "a" ∧
    (-1 : Int) < 0 :=
  ⟨rfl, by decide⟩

/-- C4 (amended): reverse lookup of a single integer index fails (with
the `IndexError`-style condition of Python list indexing) if and only if
the index is outside `[-size(), size())` — negative indices resolve
Python-style to `size() + i` — and every index in `[0, size())` returns
the token at that position.  The embedding is purely functional, so a
failing call cannot alter the vocabulary. -/
theorem to_tokens_fails_iff (v : Vocab) (i : Int) :
    ((∃ e, to_tokensS v i = Except.error e) ↔
      i < -(vocabLen v : Int) ∨ (vocabLen v : Int) ≤ i) ∧
    (0 ≤ i → i < (vocabLen v : Int) →
      ∃ s, v.idx_to_token[i.toNat]? = some s ∧ to_tokensS v i = Except.ok s) := by
  have hv : vocabLen v = v.idx_to_token.length := rfl
  constructor
  · constructor
    · rintro ⟨e, he⟩
      by_contra hout
      push_neg at hout
      obtain ⟨s, _, hs⟩ := to_tokensS_inbounds v i (by omega) (by omega)
      rw [he] at hs
      exact Except.noConfusion hs
    · intro h
      exact ⟨_, to_tokensS_oob v i h⟩
  · intro h0 hlt
    obtain ⟨s, hg, hs⟩ := to_tokensS_inbounds v i (by omega) (by omega)
    refine ⟨s, ?_, hs⟩
    rwa [if_neg (by omega : ¬ i < 0)] at hg

/-- C4 witness: a valid index returns its token; hypotheses hold at 1. -/
theorem to_tokens_fails_iff_witness :
    (0 : Int) ≤ 1 ∧ (1 : Int) < (vocabLen (makeVocab [["a"]] 0 []) : Int) ∧
    ∃ s, (makeVocab [["a"]] 0 []).idx_to_token[(1 : Int).toNat]? = some s ∧
      to_tokensS (makeVocab [["a"]] 0 []) 1 = Except.ok s :=
  ⟨by decide, by decide,
    (to_tokens_fails_iff (makeVocab [["a"]] 0 []) 1).2 (by decide) (by decide)⟩

/-- C5 counterexample: the claim's formula deduplicates the reserved
list against the unknown token (the code does not), and excludes from
the corpus part only tokens in the reserved list (the code also excludes
the unknown token).  Both discrepancies are exhibited. -/
theorem vocab_size_spec_formula_wrong :
    vocabLen (makeVocab [["<unk>"]] 0 []) = 1 ∧
    sizeSpec [["<unk>"]] 0 [] = 2 ∧
    vocabLen (makeVocab [] 0 ["<unk>"]) = 2 ∧
    sizeSpec [] 0 ["<unk>"] = 1 := by
  decide

/-- C5 (amended): `size()` equals 1 plus the number of reserved tokens
(with no deduplication) plus the number of distinct corpus tokens of
frequency at least `min_freq` that are neither the unknown token nor in
the reserved list. -/
theorem vocab_size_eq (tokens : List (List String)) (mf : Nat)
    (res : List String) :
    vocabLen (makeVocab tokens mf res) = 1 + res.length +
      ((firstOccs tokens.flatten).filter (fun t =>
        decide (mf ≤ tokens.flatten.count t) &&
          !(("<unk>" :: res).contains t))).length :=
  vocabLen_formula tokens mf res

/-- C8: raising `min_freq` never increases the vocabulary size. -/
theorem vocab_size_min_freq_antitone (tokens : List (List String))
    (res : List String) (m1 m2 : Nat) (h : m1 ≤ m2) :
    vocabLen (makeVocab tokens m2 res) ≤ vocabLen (makeVocab tokens m1 res) := by
  rw [vocabLen_formula, vocabLen_formula]
  have : ∀ mf : Nat, ((firstOccs tokens.flatten).filter (fun t =>
      decide (mf ≤ tokens.flatten.count t) &&
        !(("<unk>" :: res).contains t))).length =
      (firstOccs tokens.flatten).countP (fun t =>
        decide (mf ≤ tokens.flatten.count t) &&
          !(("<unk>" :: res).contains t)) := by
    intro mf; rw [List.countP_eq_length_filter]
  rw [this, this]
  have hmono : (firstOccs tokens.flatten).countP
      (fun t => decide (m2 ≤ tokens.flatten.count t) &&
        !(("<unk>" :: res).contains t)) ≤
      (firstOccs tokens.flatten).countP
        (fun t => decide (m1 ≤ tokens.flatten.count t) &&
          !(("<unk>" :: res).contains t)) :=
    List.countP_mono_left (by
      intro t _ ht
      simp only [Bool.and_eq_true, decide_eq_true_eq] at ht ⊢
      exact ⟨Nat.le_trans h ht.1, ht.2⟩)
  omega

/-- C8 witness at a concrete corpus. -/
theorem vocab_size_min_freq_antitone_witness :
    0 ≤ 2 ∧
    vocabLen (makeVocab [["a", "b"]] 2 []) ≤ vocabLen (makeVocab [["a", "b"]] 0 []) :=
  ⟨by decide, vocab_size_min_freq_antitone [["a", "b"]] [] 0 2 (by decide)⟩

/-- C9: the corpus encoder returns the flat index sequence (per-line
token sequences concatenated in document order, each token looked up in
the vocabulary built from those same tokens) together with that
vocabulary; a positive `max_tokens` keeps a prefix of at most
`max_tokens` elements, and `max_tokens ≤ 0` leaves it untruncated. -/
theorem load_corpus_truncation (rawLines : List (List Char)) (mt : Int) :
    (mt ≤ 0 → load_corpus_time_machine rawLines mt =
      some (fullCorpus rawLines, makeVocab (charTokens rawLines) 0 [])) ∧
    (0 < mt → load_corpus_time_machine rawLines mt =
        some ((fullCorpus rawLines).take mt.toNat,
          makeVocab (charTokens rawLines) 0 []) ∧
      ((fullCorpus rawLines).take mt.toNat).length ≤ mt.toNat ∧
      ∃ r, fullCorpus rawLines = (fullCorpus rawLines).take mt.toNat ++ r) := by
  have ht : tokenize (rawLines.map normalize) "char" = some (charTokens rawLines) := rfl
  have hfull : fullCorpus rawLines =
      ((charTokens rawLines).map
        (fun line => line.map (getitemS (makeVocab (charTokens rawLines) 0 [])))).flatten := by
    rw [fullCorpus, List.map_flatten]
  constructor
  · intro h
    have hnot : ¬ mt > 0 := by omega
    simp only [load_corpus_time_machine, ht, hnot, if_false, hfull]
  · intro h
    refine ⟨?_, ?_, (fullCorpus rawLines).drop mt.toNat, (List.take_append_drop _ _).symm⟩
    · simp only [load_corpus_time_machine, ht, h, if_true, hfull]
    · rw [List.length_take]; exact Nat.min_le_left _ _

/-- C9 witness: a two-line corpus truncated to two indices, and the
same corpus untruncated. -/
theorem load_corpus_truncation_witness :
    ((0 : Int) < 2 ∧ load_corpus_time_machine ["ab".data, "c".data] 2 =
      some ((fullCorpus ["ab".data, "c".data]).take 2,
        makeVocab (charTokens ["ab".data, "c".data]) 0 [])) ∧
    ((-1 : Int) ≤ 0 ∧ load_corpus_time_machine ["ab".data, "c".data] (-1) =
      some (fullCorpus ["ab".data, "c".data],
        makeVocab (charTokens ["ab".data, "c".data]) 0 [])) :=
  ⟨⟨by decide, ((load_corpus_truncation ["ab".data, "c".data] 2).2 (by decide)).1⟩,
   ⟨by decide, (load_corpus_truncation ["ab".data, "c".data] (-1)).1 (by decide)⟩⟩

theorem charToNatOfNatAdd (n : Nat) (h1 : 65 ≤ n) (h2 : n ≤ 90) :
    (Char.ofNat (n + 32)).toNat = n + 32 := by
  have hv : (n + 32).isValidChar := by
    left
    omega
  rw [Char.ofNat, dif_pos hv]
  simp [Char.ofNatAux, Char.toNat, UInt32.toNat, BitVec.toNat_ofNatLt]

theorem alphaB_not_spc {c : Char} (h : isAlphaB c = true) : isSpc c = false := by
  simp only [isAlphaB, decide_eq_true_eq] at h
  simp only [isSpc, decide_eq_false_iff_not]
  omega

theorem spc_eq_space {c : Char} (halpha : isAlphaB c = true ∨ c = ' ')
    (h : isSpc c = true) : c = ' ' := by
  rcases halpha with ha | rfl
  · rw [alphaB_not_spc ha] at h; cases h
  · rfl

theorem lowerChar_isSpc (c : Char) : isSpc (lowerChar c) = isSpc c := by
  unfold lowerChar
  split
  case isTrue h =>
    have ht := charToNatOfNatAdd c.toNat h.1 h.2
    have ha : isSpc (Char.ofNat (c.toNat + 32)) = false := by
      simp only [isSpc, ht, decide_eq_false_iff_not]
      omega
    have hb : isSpc c = false := by
      simp only [isSpc, decide_eq_false_iff_not]
      omega
    rw [ha, hb]
  case isFalse h => rfl

theorem lowerChar_space : lowerChar ' ' = ' ' := by decide

theorem dropWhile_head_not {p : Char → Bool} :
    ∀ (l : List Char) {c}, (l.dropWhile p).head? = some c → p c = false
  | [], c, h => by simp [List.dropWhile] at h
  | x :: xs, c, h => by
    by_cases hx : p x
    · rw [List.dropWhile_cons, if_pos hx] at h
      exact dropWhile_head_not xs h
    · rw [List.dropWhile_cons, if_neg hx] at h
      have : c = x := by simpa using h.symm
      subst this
      simpa using hx

theorem getLast?_of_suffix {l₁ l₂ : List Char} (h : l₁.IsSuffix l₂)
    (hne : l₁ ≠ []) : l₁.getLast? = l₂.getLast? := by
  obtain ⟨pre, rfl⟩ := h
  rw [List.getLast?_append]
  have hs : l₁.getLast?.isSome := by
    rwa [List.getLast?_isSome]
  exact (Option.or_of_isSome hs).symm

theorem strip_head_not {s : List Char} {c : Char}
    (h : (strip s).head? = some c) : isSpc c = false := by
  unfold strip at h
  rw [List.head?_reverse] at h
  have hne : ((s.dropWhile isSpc).reverse).dropWhile isSpc ≠ [] := by
    intro hz
    rw [hz] at h
    cases h
  rw [getLast?_of_suffix (List.dropWhile_suffix isSpc) hne,
    List.getLast?_reverse] at h
  exact dropWhile_head_not _ h

theorem strip_last_not {s : List Char} {c : Char}
    (h : (strip s).getLast? = some c) : isSpc c = false := by
  unfold strip at h
  rw [List.getLast?_reverse] at h
  exact dropWhile_head_not _ h

theorem mem_strip {s : List Char} {c : Char} (h : c ∈ strip s) : c ∈ s := by
  unfold strip at h
  rw [List.mem_reverse] at h
  have h2 : c ∈ (s.dropWhile isSpc).reverse :=
    (List.dropWhile_sublist isSpc).subset h
  rw [List.mem_reverse] at h2
  exact (List.dropWhile_sublist isSpc).subset h2

theorem strip_chain' {R : Char → Char → Prop} (hsym : ∀ a b, R a b → R b a)
    {s : List Char} (h : s.Chain' R) : (strip s).Chain' R := by
  unfold strip
  have h1 : (s.dropWhile isSpc).Chain' R :=
    h.suffix (List.dropWhile_suffix isSpc)
  have h2 : ((s.dropWhile isSpc).reverse).Chain' R := by
    rw [List.chain'_reverse]
    exact h1.imp fun a b hr => hsym a b hr
  have h3 : (((s.dropWhile isSpc).reverse).dropWhile isSpc).Chain' R :=
    h2.suffix (List.dropWhile_suffix isSpc)
  rw [List.chain'_reverse]
  exact h3.imp fun a b hr => hsym a b hr

theorem mem_collapse : ∀ {l : List Char} {c : Char},
    c ∈ collapse l → isAlphaB c = true ∨ c = ' '
  | [], c, h => by simp [collapse] at h
  | x :: xs, c, h => by
    by_cases ha : isAlphaB x
    · simp only [collapse, ha, if_true] at h
      rcases List.mem_cons.1 h with rfl | h'
      · exact Or.inl ha
      · exact mem_collapse h'
    · simp only [collapse, ha, Bool.false_eq_true, if_false] at h
      by_cases hh : (collapse xs).head? = some ' '
      · rw [if_pos hh] at h
        exact mem_collapse h
      · rw [if_neg hh] at h
        rcases List.mem_cons.1 h with rfl | h'
        · exact Or.inr rfl
        · exact mem_collapse h'

theorem chain'_collapse : ∀ l : List Char,
    (collapse l).Chain' (fun a b => ¬(isSpc a = true ∧ isSpc b = true))
  | [] => by simp [collapse]
  | x :: xs => by
    by_cases ha : isAlphaB x
    · simp only [collapse, ha, if_true]
      refine List.chain'_cons'.2 ⟨fun y _ => ?_, chain'_collapse xs⟩
      rintro ⟨hx, _⟩
      rw [alphaB_not_spc ha] at hx
      cases hx
    · simp only [collapse, ha, Bool.false_eq_true, if_false]
      by_cases hh : (collapse xs).head? = some ' '
      · rw [if_pos hh]
        exact chain'_collapse xs
      · rw [if_neg hh]
        refine List.chain'_cons'.2 ⟨fun y hy => ?_, chain'_collapse xs⟩
        rintro ⟨-, hy'⟩
        have hsome : (collapse xs).head? = some y := hy
        have hym : y ∈ collapse xs := by
          cases hcxs : collapse xs with
          | nil => rw [hcxs] at hsome; cases hsome
          | cons z zs =>
            rw [hcxs, List.head?_cons] at hsome
            have hz : z = y := by simpa using hsome
            rw [← hz]
            exact List.mem_cons_self z zs
        have hsp := spc_eq_space (mem_collapse hym) hy'
        exact hh (by rw [hsome, hsp])

theorem pySplit_cons_spc (d : Char) (ds : List Char) (hd : isSpc d = true) :
    pySplit (d :: ds) = pySplit ds := by
  rw [pySplit, if_pos hd]

theorem pySplit_cons_word (c : Char) (cs : List Char) (hc : isSpc c = false) :
    pySplit (c :: cs) = match pySplit cs with
      | [] => [[c]]
      | w :: ws => if headIsSpc cs then [c] :: w :: ws else (c :: w) :: ws := by
  rw [pySplit, if_neg (by simp [hc])]

theorem pySplit_ne_nil (d : Char) (ds : List Char) (h : isSpc d = false) :
    pySplit (d :: ds) ≠ [] := by
  rw [pySplit_cons_word d ds h]
  cases hx : pySplit ds with
  | nil => simp
  | cons w ws =>
    by_cases hh : headIsSpc ds <;> simp [hh]

theorem joinSp_cons_cons (c : Char) (w : List Char) (ws : List (List Char)) :
    joinSp ((c :: w) :: ws) = c :: joinSp (w :: ws) := by
  cases ws <;> simp [joinSp]

theorem joinSp_pySplit_aux : ∀ (n : Nat) (s : List Char), s.length ≤ n →
    (∀ c, s.head? = some c → isSpc c = false) →
    (∀ c, s.getLast? = some c → isSpc c = false) →
    (s.Chain' fun a b => ¬(isSpc a = true ∧ isSpc b = true)) →
    (∀ c ∈ s, isSpc c = true → c = ' ') →
    joinSp (pySplit s) = s
  | 0, s, hlen, _, _, _, _ => by
    have : s = [] := List.length_eq_zero.1 (Nat.le_antisymm hlen (Nat.zero_le _))
    rw [this]
    rfl
  | Nat.succ n, s, hlen, h1, h2, h3, h4 => by
      cases s with
      | nil => rfl
      | cons c cs =>
        have hc : isSpc c = false := h1 c rfl
        cases hps : pySplit cs with
        | nil =>
          have hgoal : pySplit (c :: cs) = [[c]] := by
            rw [pySplit_cons_word c cs hc, hps]
          rw [hgoal]
          cases cs with
          | nil => rfl
          | cons d ds =>
            exfalso
            by_cases hd : isSpc d
            · have hd' : d = ' ' := h4 d (by simp) hd
              cases ds with
              | nil =>
                have := h2 d (by simp)
                rw [this] at hd
                cases hd
              | cons e ds' =>
                have he : isSpc e = false := by
                  have hrel := (List.chain'_cons.1 (List.chain'_cons.1 h3).2).1
                  by_cases heb : isSpc e
                  · exact absurd ⟨hd, heb⟩ hrel
                  · simpa using heb
                have heq := pySplit_cons_spc d (e :: ds') hd
                exact pySplit_ne_nil e ds' he (by rw [← heq]; exact hps)
            · exact pySplit_ne_nil d ds (by simpa using hd) hps
        | cons w ws =>
          cases cs with
          | nil => simp [pySplit] at hps
          | cons d ds =>
            by_cases hd : isSpc d
            · have hd' : d = ' ' := h4 d (by simp) hd
              cases ds with
              | nil =>
                exfalso
                have := h2 d (by simp)
                rw [this] at hd
                cases hd
              | cons e ds' =>
                have he : isSpc e = false := by
                  have hrel := (List.chain'_cons.1 (List.chain'_cons.1 h3).2).1
                  by_cases heb : isSpc e
                  · exact absurd ⟨hd, heb⟩ hrel
                  · simpa using heb
                have hh : headIsSpc (d :: e :: ds') = true := by
                  simp [headIsSpc, hd]
                have hgoal : pySplit (c :: d :: e :: ds') = [c] :: w :: ws := by
                  rw [pySplit_cons_word c _ hc, hps]
                  simp [hh]
                rw [hgoal]
                have heq := pySplit_cons_spc d (e :: ds') hd
                have hrec := joinSp_pySplit_aux n (e :: ds')
                  (by simp only [List.length_cons] at hlen ⊢; omega)
                  (fun c' hc' => by
                    simp only [List.head?_cons, Option.some_inj] at hc'
                    rw [← hc']
                    exact he)
                  (fun c' hc' => h2 c' (by
                    rw [List.getLast?_cons_cons, List.getLast?_cons_cons]
                    exact hc'))
                  ((List.chain'_cons.1 (List.chain'_cons.1 h3).2).2)
                  (fun c' hm hs => h4 c'
                    (List.mem_cons_of_mem c (List.mem_cons_of_mem d hm)) hs)
                have hps' : pySplit (e :: ds') = w :: ws := by
                  rw [← heq]; exact hps
                rw [hps'] at hrec
                have hjoin : joinSp ([c] :: w :: ws) = c :: ' ' :: joinSp (w :: ws) := by
                  simp [joinSp]
                rw [hjoin, hrec, hd']
            · have hh : headIsSpc (d :: ds) = false := by
                simp only [headIsSpc, List.head?_cons, Option.map_some',
                  Option.getD_some]
                simpa using hd
              have hgoal : pySplit (c :: d :: ds) = (c :: w) :: ws := by
                rw [pySplit_cons_word c _ hc, hps]
                simp [hh]
              rw [hgoal, joinSp_cons_cons]
              have hrec := joinSp_pySplit_aux n (d :: ds)
                (by simp only [List.length_cons] at hlen ⊢; omega)
                (fun c' hc' => by
                  simp only [List.head?_cons, Option.some_inj] at hc'
                  rw [← hc']
                  simpa using hd)
                (fun c' hc' => h2 c' (by rw [List.getLast?_cons_cons]; exact hc'))
                ((List.chain'_cons.1 h3).2)
                (fun c' hm hs => h4 c' (List.mem_cons_of_mem c hm) hs)
              rw [hps] at hrec
              rw [hrec]

theorem joinSp_pySplit (s : List Char)
    (h1 : ∀ c, s.head? = some c → isSpc c = false)
    (h2 : ∀ c, s.getLast? = some c → isSpc c = false)
    (h3 : s.Chain' fun a b => ¬(isSpc a = true ∧ isSpc b = true))
    (h4 : ∀ c ∈ s, isSpc c = true → c = ' ') :
    joinSp (pySplit s) = s :=
  joinSp_pySplit_aux s.length s (Nat.le_refl _) h1 h2 h3 h4

/-- C7: normalizing a non-empty raw line (each maximal non-alphabetic
run replaced by one space, trimmed, lower-cased), word-tokenizing it and
rejoining the tokens with single spaces returns the normalized line. -/
theorem normalize_split_roundtrip (l : List Char) (_hne : l ≠ []) :
    joinSp (pySplit (normalize l)) = normalize l := by
  apply joinSp_pySplit
  · intro c hc
    rw [normalize, List.head?_map] at hc
    obtain ⟨c₀, h₀, rfl⟩ := Option.map_eq_some'.1 hc
    rw [lowerChar_isSpc]
    exact strip_head_not h₀
  · intro c hc
    rw [normalize, List.getLast?_map] at hc
    obtain ⟨c₀, h₀, rfl⟩ := Option.map_eq_some'.1 hc
    rw [lowerChar_isSpc]
    exact strip_last_not h₀
  · rw [normalize, List.chain'_map]
    have hch : (strip (collapse l)).Chain'
        (fun a b => ¬(isSpc a = true ∧ isSpc b = true)) :=
      strip_chain' (fun a b h => fun hint => h ⟨hint.2, hint.1⟩)
        (chain'_collapse l)
    exact hch.imp fun a b hr => by
      rw [lowerChar_isSpc, lowerChar_isSpc]
      exact hr
  · intro c hc hs
    rw [normalize] at hc
    obtain ⟨c₀, h₀, rfl⟩ := List.mem_map.1 hc
    rw [lowerChar_isSpc] at hs
    have := spc_eq_space (mem_collapse (mem_strip h₀)) hs
    rw [this]
    exact lowerChar_space

/-- C7 witness: a concrete messy line round-trips. -/
theorem normalize_split_roundtrip_witness :
    ("The;; Time Machine!".data ≠ []) ∧
    joinSp (pySplit (normalize "The;; Time Machine!".data)) =
      normalize "The;; Time Machine!".data :=
  ⟨by decide, normalize_split_roundtrip "The;; Time Machine!".data (by decide)⟩

end TextPrep
